import Mathlib

/-!
# Verification of the FLV container reader (`flv/reader.go`)

A shallow embedding of the Go package `flv`'s reader: the byte-order codec
helpers (`getInt24`, `getUint24`, `getUint32`, `getTime`, `putTime`,
`putUint32`), the buffered peek/skip reader `fileReader` with its lazy
pending-skip resolution (`validate`, `next`, `skip`, `reader`), and the
container-level operations `ReadHeader` / `ReadTag`.

Bytes are modelled as `Nat` (a valid byte is `< 256`); Go `int`/`int64`
values are modelled as `Int`.  The underlying `io.Reader` is modelled as a
list of bytes `data` together with the number of bytes the buffered layer
has already consumed from it; the `bufio.Reader`'s read-ahead is the
`buffered` count (the buffered bytes are `data[consumed, consumed+buffered)`,
so the underlying source position is `consumed + buffered`).  The model's
underlying reads return exactly the bytes the buffered layer needs, a valid
behaviour of an `io.Reader`; the observable results of the container
interface do not depend on this choice (see `runFile_buffered_irrelevant`
style lemmas below).  Errors collapse to a small enumeration: `eof` stands
for Go's `io.EOF` (returned by `bufio.Peek`/`Discard` when the data runs
out), and the two format errors of `ReadHeader` carry the offending bytes.
-/

namespace FlvSpec

/-- Go `uint8(v)` conversion of an `int64`/`int`: the low byte, i.e. the
mathematical residue in `[0, 256)`. -/
def goUint8 (v : Int) : Nat := (v % 256).toNat

/-- Go arithmetic right shift `v >> k` on `int64`: floor division by `2^k`. -/
def goShr (v : Int) (k : Nat) : Int := Int.fdiv v (2 ^ k)

/-- `b[i]` on a byte slice; the Go code guards slice length at each call
site (`_ = b[2]` etc.), and every call below is made with enough bytes. -/
def byteAt (b : List Nat) (i : Nat) : Nat := b.getD i 0

/-- `getInt24`: 24-bit big-endian value as a Go `int`. -/
def getInt24 (b : List Nat) : Int :=
  (byteAt b 2 : Int) + (byteAt b 1 : Int) * 2 ^ 8 + (byteAt b 0 : Int) * 2 ^ 16

/-- `getUint24`: 24-bit big-endian value as a Go `uint32` (never negative). -/
def getUint24 (b : List Nat) : Nat :=
  byteAt b 2 + byteAt b 1 * 2 ^ 8 + byteAt b 0 * 2 ^ 16

/-- `putUint24 b v`: the three bytes written. -/
def putUint24 (v : Nat) : List Nat :=
  [v / 2 ^ 16 % 256, v / 2 ^ 8 % 256, v % 256]

/-- `getTime`: the 4-byte timestamp decoding, `b[2] | b[1]<<8 | b[0]<<16 |
b[3]<<24`, as a Go `int64`. -/
def getTime (b : List Nat) : Int :=
  (byteAt b 2 : Int) + (byteAt b 1 : Int) * 2 ^ 8 + (byteAt b 0 : Int) * 2 ^ 16
    + (byteAt b 3 : Int) * 2 ^ 24

/-- `putTime b v`: the four bytes written, `b[2],b[1],b[0],b[3] = uint8(v),
uint8(v>>8), uint8(v>>16), uint8(v>>24)`, listed in buffer order
`[b0, b1, b2, b3]`. -/
def putTime (v : Int) : List Nat :=
  [goUint8 (goShr v 16), goUint8 (goShr v 8), goUint8 v, goUint8 (goShr v 24)]

/-- `getUint32`: 32-bit big-endian value as a Go `uint32`. -/
def getUint32 (b : List Nat) : Nat :=
  byteAt b 3 + byteAt b 2 * 2 ^ 8 + byteAt b 1 * 2 ^ 16 + byteAt b 0 * 2 ^ 24

/-- `putUint32 b v`: the four bytes written, big-endian. -/
def putUint32 (v : Nat) : List Nat :=
  [v / 2 ^ 24 % 256, v / 2 ^ 16 % 256, v / 2 ^ 8 % 256, v % 256]

/-- Modelled from the spec: the fixed 3-byte signature "FLV"
(`0x46 0x4C 0x56`) read as a 24-bit big-endian constant; the Go constant
`signature` is declared outside the provided source file. -/
def signature : Nat := 0x46 * 2 ^ 16 + 0x4C * 2 ^ 8 + 0x56

/-- Modelled from the spec: the `Header` record, one flags byte (bit 0 =
video present, bit 2 = audio present); the Go struct is declared outside the
provided source file, and `ReadHeader` constructs it as `&Header{b[4]}`. -/
structure Header where
  Flags : Nat
deriving Repr, DecidableEq

/-- Modelled from the spec: the `Tag` record; the Go struct is declared
outside the provided source file, and `ReadTag` constructs it with
`Type = b[4]` (byte), `Size = getInt24(b[5:])` (int), `Time = getTime(b[8:])`
(int64), `Stream = getUint24(b[12:])` (uint32).  The Go field `Type` is
spelled `Typ` here because `Type` is a Lean keyword. -/
structure Tag where
  Typ : Nat
  Size : Int
  Time : Int
  Stream : Nat
deriving Repr, DecidableEq

/-- The error outcomes of the reader.  `eof` stands for Go's `io.EOF`, the
distinguished clean end-of-input error, which is what both `bufio.Peek` and
`bufio.Discard` surface when the byte source is exhausted.  The two format
errors carry the diagnostic payload the Go errors format. -/
inductive Err where
  | eof
  | badSignature (bytes : List Nat)
  | badVersion (v : Nat)
deriving Repr, DecidableEq

/-- The `fileReader` state.  `data` is the whole underlying byte stream,
`consumed` the number of bytes logically consumed from it (removed from the
`bufio` buffer), `buffered` the `bufio.Reader` read-ahead (so the underlying
source position is `consumed + buffered`), `pending` the shared
`io.LimitedReader` counter `r.l.N` (an `int64`), and `seekable` records
whether the construction-time `io.ReadSeeker` type assertion succeeded. -/
structure FR where
  data : List Nat
  consumed : Nat
  buffered : Nat
  pending : Int
  seekable : Bool
deriving Repr, DecidableEq

namespace FR

/-- `newFileReader r`: fresh buffered reader over a byte source, pending
count zero, seek capability recorded once at construction. -/
def newFileReader (data : List Nat) (seekable : Bool) : FR :=
  ⟨data, 0, 0, 0, seekable⟩

/-- The logical read position: bytes physically consumed plus the pending
virtual consumption (a non-positive pending count contributes nothing,
matching `validate`'s `r.l.N <= 0` no-op). -/
def logicalPos (r : FR) : Nat := r.consumed + r.pending.toNat

/-- `bufio.Reader.Discard k` for `k > 0`: drop `k` bytes, reading from the
source as needed; fails (with the source's `io.EOF`) when fewer than `k`
bytes remain in total. -/
def discard (r : FR) (k : Nat) : Except Err FR :=
  if r.consumed + k ≤ r.data.length then
    .ok { r with consumed := r.consumed + k, buffered := r.buffered - k }
  else
    .error .eof

/-- `fileReader.validate`: resolve the pending-skip count.  No-op when
`r.l.N <= 0`; otherwise zero the count and either (buffer short of the count
and seek capability present) reset the buffer and seek the source forward by
`pending - buffered` from the current source position `consumed + buffered`,
or discard exactly `pending` bytes through the buffer. -/
def validate (r : FR) : Except Err FR :=
  if r.pending ≤ 0 then
    .ok r
  else if (r.buffered : Int) < r.pending ∧ r.seekable then
    .ok { r with
            pending := 0,
            consumed := ((r.consumed : Int) + (r.buffered : Int)
                          + (r.pending - (r.buffered : Int))).toNat,
            buffered := 0 }
  else
    FR.discard { r with pending := 0 } r.pending.toNat

/-- `fileReader.next n`: validate, then `bufio.Peek n` (returning the next
`n` bytes without consuming them, filling the read-ahead; `io.EOF` when
fewer than `n` bytes remain), then set the shared counter to `n`. -/
def next (n : Nat) (r : FR) : Except Err (List Nat × FR) := do
  let rv ← r.validate
  if rv.consumed + n ≤ rv.data.length then
    .ok ((rv.data.drop rv.consumed).take n,
         { rv with buffered := max rv.buffered n, pending := n })
  else
    .error .eof

/-- `fileReader.skip n`: for positive `n` add it to the pending count;
otherwise do nothing. -/
def skip (n : Int) (r : FR) : FR :=
  if 0 < n then { r with pending := r.pending + n } else r

/-- `fileReader.reader n`: validate, then hand out the shared
`io.LimitedReader` with its counter set to `n`.  The granted payload stream
is the state itself (reading from it is `readPayload` below). -/
def reader (n : Int) (r : FR) : Except Err FR := do
  let rv ← r.validate
  .ok { rv with pending := n }

/-- Reading `j` bytes from the granted payload stream (`io.LimitedReader`
over the `bufio.Reader`): yields `min j N` bytes bounded by the bytes
actually remaining in the source, decrementing the shared counter by the
bytes read.  A caller that stops early simply leaves the counter positive. -/
def readPayload (j : Nat) (r : FR) : List Nat × FR :=
  let m := min j (min r.pending.toNat (r.data.length - r.consumed))
  ((r.data.drop r.consumed).take m,
   { r with consumed := r.consumed + m,
            buffered := r.buffered - m,
            pending := r.pending - m })

end FR

/-- `Reader.ReadHeader`: peek 9 bytes, check the 3-byte signature and the
version byte, mark-skip `headerLength - 9` bytes, return the flags byte. -/
def ReadHeader (r : FR) : Except Err (Header × FR) := do
  let (b, r1) ← r.next 9
  if getUint24 b ≠ signature then
    .error (.badSignature (b.take 3))
  else if byteAt b 3 ≠ 1 then
    .error (.badVersion (byteAt b 3))
  else
    .ok (⟨byteAt b 4⟩, r1.skip ((getUint32 (b.drop 5) : Int) - 9))

/-- `Reader.ReadTag`: peek 15 bytes (4-byte previous-tag-size + 11-byte tag
header), decode the fields, and grant the bounded payload reader of
`tag.Size` bytes.  The returned `FR` is both the reader state and the
granted payload stream (they share the counter in the Go code). -/
def ReadTag (r : FR) : Except Err (Tag × FR) := do
  let (b, r1) ← r.next 15
  let tag : Tag :=
    { Typ := byteAt b 4
      Size := getInt24 (b.drop 5)
      Time := getTime (b.drop 8)
      Stream := getUint24 (b.drop 12) }
  let r2 ← r1.reader tag.Size
  .ok (tag, r2)

/-- A byte stream is valid when every element fits in one byte. -/
def ValidBytes (l : List Nat) : Prop := ∀ b ∈ l, b < 256

/-- A well-formed 9-byte file header: signature, version 1, a flags byte,
and a declared total header length `L` (big-endian 32-bit). -/
def headerBytes (flags L : Nat) : List Nat :=
  0x46 :: 0x4C :: 0x56 :: 1 :: flags :: putUint32 L

/-- One tag as laid out in the stream: the 15-byte fixed region (4-byte
previous-tag-size plus 11-byte tag header) followed by the payload. -/
structure TagBlock where
  hdr : List Nat
  payload : List Nat

/-- Well-formedness of a tag block: the fixed region is 15 bytes and its
declared size field equals the payload length. -/
def TagBlock.wf (t : TagBlock) : Prop :=
  t.hdr.length = 15 ∧ getInt24 (t.hdr.drop 5) = (t.payload.length : Int)

/-- The byte encoding of one tag block. -/
def TagBlock.enc (t : TagBlock) : List Nat := t.hdr ++ t.payload

/-- The byte encoding of a sequence of tag blocks. -/
def encTags (ts : List TagBlock) : List Nat := (ts.map TagBlock.enc).flatten

/-- Repeatedly call `ReadTag`, after each call reading `j` bytes of the
granted payload stream for the corresponding entry `j` of `js` (a caller
may under- or over-request; the stream is bounded).  Records, for each
call, the logical position at which it was made and the returned `Size`. -/
def readTagsTrace (js : List Nat) (r : FR) : Except Err (List (Nat × Int) × FR) :=
  match js with
  | [] => .ok ([], r)
  | j :: js' => do
    let (t, r1) ← ReadTag r
    let r2 := (FR.readPayload j r1).2
    let (tr, r3) ← readTagsTrace js' r2
    .ok ((FR.logicalPos r, t.Size) :: tr, r3)

/-- The trace C1 predicts: tag `i` is read at the start of its 15-byte
fixed region and reports its payload length as `Size`. -/
def expectedTrace (p : Nat) : List TagBlock → List (Nat × Int)
  | [] => []
  | b :: bs => (p, (b.payload.length : Int)) :: expectedTrace (p + 15 + b.payload.length) bs

/-- Repeatedly call `ReadTag`, reading `j` payload bytes after each call,
collecting the tags and the payload bytes actually yielded. -/
def readTagsRun (js : List Nat) (r : FR) : Except Err (List (Tag × List Nat) × FR) :=
  match js with
  | [] => .ok ([], r)
  | j :: js' => do
    let (t, r1) ← ReadTag r
    let pr := FR.readPayload j r1
    let (rest, r3) ← readTagsRun js' pr.2
    .ok ((t, pr.1) :: rest, r3)

/-- A full run at the container interface: open a reader over `data` with
the given seek capability, read the header, then run `readTagsRun`.  The
result is everything a caller observes: the header, the tags, and the
payload bytes. -/
def runFile (data : List Nat) (seekable : Bool) (js : List Nat) :
    Except Err (Header × List (Tag × List Nat)) := do
  let (h, r1) ← ReadHeader (FR.newFileReader data seekable)
  let (ts, _) ← readTagsRun js r1
  .ok (h, ts)

/-! ## Basic lemmas about the codec and the buffered reader -/

theorem goShr_natCast (n k : Nat) : goShr (n : Int) k = ((n / 2 ^ k : Nat) : Int) := by
  have h : ((2 ^ k : Nat) : Int) = (2 : Int) ^ k := by push_cast; ring
  rw [goShr, ← h, ← Int.ofNat_fdiv]

theorem goUint8_natCast (n : Nat) : goUint8 (n : Int) = n % 256 := by
  unfold goUint8; omega

theorem byteAt_lt (l : List Nat) (h : ValidBytes l) (i : Nat) : byteAt l i < 256 := by
  unfold byteAt List.getD
  cases hg : l.get? i with
  | none => simp
  | some x => simpa using h x (List.get?_mem hg)

theorem validate_of_nonpos (r : FR) (h : r.pending ≤ 0) : r.validate = .ok r := by
  unfold FR.validate
  simp [h]

/-- Whatever branch `validate` takes, a successful resolution lands the
consumed count at the old logical position, zeroes a positive pending
count, and touches neither the data nor the seek capability. -/
theorem validate_ok_spec (r rv : FR) (h : r.validate = .ok rv) :
    rv.data = r.data ∧ rv.seekable = r.seekable ∧
    rv.consumed = r.consumed + r.pending.toNat ∧
    rv.pending = (if 0 < r.pending then 0 else r.pending) := by
  unfold FR.validate at h
  split at h
  · next hle =>
    cases h
    exact ⟨rfl, rfl, by omega, by rw [if_neg (by omega)]⟩
  · next hpos =>
    split at h
    · next hseek =>
      cases h
      exact ⟨rfl, rfl, by simp only; omega, by rw [if_pos (by omega)]⟩
    · next hseek =>
      unfold FR.discard at h
      split at h
      · cases h
        exact ⟨rfl, rfl, rfl, by rw [if_pos (by omega)]⟩
      · cases h

/-- When enough bytes remain to cover the pending count, `validate`
succeeds and lands at the logical position. -/
theorem validate_ok_of_avail (r : FR)
    (havail : r.consumed + r.pending.toNat ≤ r.data.length) :
    ∃ B, r.validate =
      .ok { data := r.data, consumed := r.consumed + r.pending.toNat,
            buffered := B,
            pending := if 0 < r.pending then 0 else r.pending,
            seekable := r.seekable } := by
  unfold FR.validate
  split
  · next hle =>
    refine ⟨r.buffered, ?_⟩
    rw [if_neg (by omega)]
    have hz : r.pending.toNat = 0 := by omega
    simp [hz]
  · next hpos =>
    split
    · next hseek =>
      refine ⟨0, ?_⟩
      rw [if_pos (by omega)]
      have hc : ((r.consumed : Int) + (r.buffered : Int)
          + (r.pending - (r.buffered : Int))).toNat = r.consumed + r.pending.toNat := by
        omega
      rw [hc]
    · next hseek =>
      refine ⟨r.buffered - r.pending.toNat, ?_⟩
      unfold FR.discard
      rw [if_pos (by simpa using havail)]
      rw [if_pos (by omega)]

/-- `validate` fails exactly when a positive pending count must be
discharged by discarding (no seek fallback applies) and the data runs out;
the error is the source's end-of-input error. -/
theorem validate_error_iff (r : FR) (e : Err) :
    r.validate = .error e ↔
      0 < r.pending ∧ ¬((r.buffered : Int) < r.pending ∧ r.seekable = true) ∧
      r.data.length < r.consumed + r.pending.toNat ∧ e = .eof := by
  unfold FR.validate FR.discard
  split
  · next hle =>
    constructor
    · intro h; simp at h
    · rintro ⟨h1, -, -, -⟩; omega
  · next hpos =>
    split
    · next hseek =>
      constructor
      · intro h; simp at h
      · rintro ⟨-, hns, -, -⟩; exact absurd hseek hns
    · next hseek =>
      split
      · next hav =>
        have hav' : r.consumed + r.pending.toNat ≤ r.data.length := by
          simpa using hav
        constructor
        · intro h; simp at h
        · rintro ⟨-, -, hlen, -⟩; omega
      · next hav =>
        have hav' : r.data.length < r.consumed + r.pending.toNat := by
          simp at hav; omega
        constructor
        · intro h
          obtain rfl : e = .eof := by cases h; rfl
          exact ⟨by omega, hseek, hav', rfl⟩
        · rintro ⟨-, -, -, rfl⟩; rfl

/-- Inversion for a successful `next`: the grant goes through `validate`,
peeks at the resolved position, and sets the shared counter to `n`. -/
theorem next_ok_spec {n : Nat} {r : FR} {bs : List Nat} {r' : FR}
    (h : FR.next n r = .ok (bs, r')) :
    ∃ rv, r.validate = .ok rv ∧ rv.consumed + n ≤ rv.data.length ∧
      bs = (rv.data.drop rv.consumed).take n ∧
      r' = { rv with buffered := max rv.buffered n, pending := (n : Int) } := by
  unfold FR.next at h
  cases hv : r.validate with
  | error e => rw [hv] at h; exact absurd h (by simp [Bind.bind, Except.bind])
  | ok rv =>
    rw [hv] at h
    simp only [Bind.bind, Except.bind] at h
    split at h
    · next hav =>
      obtain ⟨rfl, rfl⟩ : bs = (rv.data.drop rv.consumed).take n ∧
          r' = { rv with buffered := max rv.buffered n, pending := (n : Int) } := by
        cases h; exact ⟨rfl, rfl⟩
      exact ⟨rv, rfl, hav, rfl, rfl⟩
    · cases h

/-- Inversion for a successful `reader` grant: it goes through `validate`
and hands back the shared limited reader with its counter set to `n`. -/
theorem reader_ok_spec {n : Int} {r r' : FR} (h : FR.reader n r = .ok r') :
    ∃ rv, r.validate = .ok rv ∧ r' = { rv with pending := n } := by
  unfold FR.reader at h
  cases hv : r.validate with
  | error e => rw [hv] at h; exact absurd h (by simp [Bind.bind, Except.bind])
  | ok rv =>
    rw [hv] at h
    simp only [Bind.bind, Except.bind] at h
    cases h
    exact ⟨rv, rfl, rfl⟩

theorem except_map_ok {α β γ : Type} {f : α → β} {x : Except γ α} {b : β}
    (h : x.map f = .ok b) : ∃ a, x = .ok a ∧ f a = b := by
  cases x with
  | error e => simp [Except.map] at h
  | ok a => exact ⟨a, rfl, by simpa [Except.map] using h⟩

theorem except_map_error {α β γ : Type} {f : α → β} {x : Except γ α} {e : γ}
    (h : x.map f = .error e) : x = .error e := by
  cases x with
  | error e' => simpa [Except.map] using h
  | ok a => simp [Except.map] at h

/-- `ReadHeader` unfolded to a first-order match, for use in proofs. -/
theorem readHeader_eq (r : FR) : ReadHeader r =
    match FR.next 9 r with
    | .error e => .error e
    | .ok (b, r1) =>
      if getUint24 b ≠ signature then .error (.badSignature (b.take 3))
      else if byteAt b 3 ≠ 1 then .error (.badVersion (byteAt b 3))
      else .ok (⟨byteAt b 4⟩, r1.skip ((getUint32 (b.drop 5) : Int) - 9)) := by
  unfold ReadHeader
  cases h : FR.next 9 r with
  | error e => simp [Bind.bind, Except.bind]
  | ok p => obtain ⟨b, r1⟩ := p; simp [Bind.bind, Except.bind]

/-- `ReadTag` unfolded to a first-order match, for use in proofs. -/
theorem readTag_eq (r : FR) : ReadTag r =
    match FR.next 15 r with
    | .error e => .error e
    | .ok (b, r1) =>
      match FR.reader (getInt24 (b.drop 5)) r1 with
      | .error e => .error e
      | .ok r2 =>
          .ok (⟨byteAt b 4, getInt24 (b.drop 5), getTime (b.drop 8),
                getUint24 (b.drop 12)⟩, r2) := by
  unfold ReadTag
  cases h : FR.next 15 r with
  | error e => simp [Bind.bind, Except.bind]
  | ok p =>
    obtain ⟨b, r1⟩ := p
    cases h2 : FR.reader (getInt24 (b.drop 5)) r1 with
    | error e => simp [Bind.bind, Except.bind, h2]
    | ok r2 => simp [Bind.bind, Except.bind, h2]

/-- Canonical observable behaviour of `next`: success depends only on the
logical position, the bytes granted are read there, and the resulting
observable state (everything but the read-ahead amount) is determined by
the input observables.  Every failure path surfaces the source's
end-of-input error. -/
theorem next_obs (n : Nat) (r : FR) :
    (FR.next n r).map (fun q => (q.1, q.2.data, q.2.consumed, q.2.pending, q.2.seekable)) =
      if FR.logicalPos r + n ≤ r.data.length then
        .ok ((r.data.drop (FR.logicalPos r)).take n, r.data, FR.logicalPos r,
             (n : Int), r.seekable)
      else
        .error .eof := by
  unfold FR.next
  cases hv : r.validate with
  | error e =>
    obtain ⟨hp, hns, hlen, rfl⟩ := (validate_error_iff r e).1 hv
    rw [if_neg (by unfold FR.logicalPos; omega)]
    simp [Bind.bind, Except.bind, Except.map]
  | ok rv =>
    obtain ⟨hdata, hseek, hcons, hpend⟩ := validate_ok_spec r rv hv
    simp only [Bind.bind, Except.bind]
    split
    · next hav =>
      rw [if_pos (by unfold FR.logicalPos; rw [← hdata]; omega)]
      simp only [Except.map]
      unfold FR.logicalPos
      rw [hdata, hcons, hseek]
    · next hav =>
      rw [if_neg (by unfold FR.logicalPos; rw [← hdata]; omega)]
      simp [Except.map]

/-- Observable behaviour of a `reader` grant made while the logical
position is inside the data (the only way the container code reaches it):
it always succeeds and installs the requested counter at the resolved
position. -/
theorem reader_obs (n : Int) (r : FR) (h : FR.logicalPos r ≤ r.data.length) :
    (FR.reader n r).map (fun q => (q.data, q.consumed, q.pending, q.seekable)) =
      .ok (r.data, FR.logicalPos r, n, r.seekable) := by
  obtain ⟨B, hv⟩ := validate_ok_of_avail r h
  unfold FR.reader
  rw [hv]
  simp [Bind.bind, Except.bind, Except.map, FR.logicalPos]

/-- Reading from the granted payload stream never moves the logical
position, and touches neither the data nor the seek capability. -/
theorem readPayload_obs (j : Nat) (r : FR) :
    (FR.readPayload j r).1 =
      (r.data.drop r.consumed).take (min j (min r.pending.toNat (r.data.length - r.consumed))) ∧
    (FR.readPayload j r).2.data = r.data ∧
    (FR.readPayload j r).2.seekable = r.seekable ∧
    (FR.readPayload j r).2.consumed + (FR.readPayload j r).2.pending.toNat
      = r.consumed + r.pending.toNat ∧
    (FR.readPayload j r).2.consumed =
      r.consumed + min j (min r.pending.toNat (r.data.length - r.consumed)) ∧
    (FR.readPayload j r).2.pending =
      r.pending - min j (min r.pending.toNat (r.data.length - r.consumed)) := by
  unfold FR.readPayload
  refine ⟨rfl, rfl, rfl, ?_, rfl, rfl⟩
  simp only
  omega

/-! ## Claim theorems -/

/-- C9: decoding with `getTime` after encoding with `putTime` is the
identity on every `int64` value in the representable range
`[0, 2^32 - 1]`. -/
theorem getTime_putTime_roundtrip (v : Int) (h0 : 0 ≤ v) (h1 : v ≤ 2 ^ 32 - 1) :
    getTime (putTime v) = v := by
  obtain ⟨n, rfl⟩ := Int.eq_ofNat_of_zero_le h0
  norm_num at h1
  have hn : n < 4294967296 := by omega
  simp only [putTime, goShr_natCast, goUint8_natCast, getTime, byteAt,
    List.getD_cons_succ, List.getD_cons_zero]
  push_cast
  omega

/-- C9 witness at `v = 4294967295`. -/
theorem getTime_putTime_roundtrip_witness :
    (0 : Int) ≤ 4294967295 ∧ (4294967295 : Int) ≤ 2 ^ 32 - 1 ∧
      getTime (putTime 4294967295) = 4294967295 :=
  ⟨by norm_num, by norm_num,
    getTime_putTime_roundtrip 4294967295 (by norm_num) (by norm_num)⟩

/-- C2: resolving a positive pending count: with a short buffer and seek
capability the whole buffer is dropped and the source seeked forward by
`pending - buffered` from the current source position `consumed + buffered`
(landing the consumed count at `consumed + pending`); otherwise exactly
`pending` bytes are discarded through the buffer, failing with the source's
I/O error when the bytes run out; in every non-failing case the pending
count is reset to zero. -/
theorem resolvePending_spec (r : FR) (hpos : 0 < r.pending) :
    (((r.buffered : Int) < r.pending ∧ r.seekable = true) →
       r.validate = .ok { data := r.data, consumed := r.consumed + r.pending.toNat,
                          buffered := 0, pending := 0, seekable := r.seekable })
    ∧ (¬((r.buffered : Int) < r.pending ∧ r.seekable = true) →
       (r.consumed + r.pending.toNat ≤ r.data.length →
          r.validate = .ok { data := r.data, consumed := r.consumed + r.pending.toNat,
                             buffered := r.buffered - r.pending.toNat, pending := 0,
                             seekable := r.seekable })
       ∧ (r.data.length < r.consumed + r.pending.toNat →
          r.validate = .error .eof)) := by
  constructor
  · intro hseek
    unfold FR.validate
    rw [if_neg (by omega), if_pos hseek]
    have hc : ((r.consumed : Int) + (r.buffered : Int)
        + (r.pending - (r.buffered : Int))).toNat = r.consumed + r.pending.toNat := by
      omega
    rw [hc]
  · intro hseek
    constructor
    · intro havail
      unfold FR.validate FR.discard
      rw [if_neg (by omega), if_neg hseek, if_pos (by simpa using havail)]
    · intro hshort
      rw [validate_error_iff]
      exact ⟨hpos, hseek, hshort, rfl⟩

/-- C2 witness: a seekable reader with 1 buffered byte and 3 pending, and a
non-seekable one with enough data, exercise both branches. -/
theorem resolvePending_spec_witness :
    (0 : Int) < 3 ∧
      (FR.validate ⟨[0, 1, 2, 3, 4], 1, 1, 3, true⟩ =
        .ok ⟨[0, 1, 2, 3, 4], 4, 0, 0, true⟩) ∧
      (FR.validate ⟨[0, 1, 2, 3, 4], 1, 1, 3, false⟩ =
        .ok ⟨[0, 1, 2, 3, 4], 4, 0, 0, false⟩) := by
  refine ⟨by decide, ?_, ?_⟩
  · exact (resolvePending_spec ⟨[0, 1, 2, 3, 4], 1, 1, 3, true⟩ (by decide)).1
      (by decide)
  · exact ((resolvePending_spec ⟨[0, 1, 2, 3, 4], 1, 1, 3, false⟩ (by decide)).2
      (by decide)).1 (by decide)

/-- Bytes peeked out of a valid stream are valid. -/
theorem validBytes_drop_take (l : List Nat) (h : ValidBytes l) (i n : Nat) :
    ValidBytes ((l.drop i).take n) := fun b hb =>
  h b (List.mem_of_mem_drop (List.mem_of_mem_take hb))

/-- Dropping a prefix preserves byte validity. -/
theorem validBytes_drop (l : List Nat) (h : ValidBytes l) (i : Nat) :
    ValidBytes (l.drop i) := fun b hb => h b (List.mem_of_mem_drop hb)

/-- The 24-bit decoder is bounded by `[0, 2^24 - 1]` on valid bytes. -/
theorem getInt24_bounds (b : List Nat) (h : ValidBytes b) :
    0 ≤ getInt24 b ∧ getInt24 b ≤ 2 ^ 24 - 1 := by
  have h0 := byteAt_lt b h 0
  have h1 := byteAt_lt b h 1
  have h2 := byteAt_lt b h 2
  unfold getInt24
  constructor <;> [positivity; omega]

/-- The timestamp decoder is bounded by `[0, 2^32 - 1]` on valid bytes. -/
theorem getTime_bounds (b : List Nat) (h : ValidBytes b) :
    0 ≤ getTime b ∧ getTime b ≤ 2 ^ 32 - 1 := by
  have h0 := byteAt_lt b h 0
  have h1 := byteAt_lt b h 1
  have h2 := byteAt_lt b h 2
  have h3 := byteAt_lt b h 3
  unfold getTime
  constructor <;> [positivity; omega]

/-- Inversion for a successful `ReadTag`: the 15 peeked bytes determine
the tag fields, and the payload grant carries `tag.Size` as its counter. -/
theorem readTag_ok_spec {r : FR} {t : Tag} {r' : FR}
    (h : ReadTag r = .ok (t, r')) :
    ∃ bs r1, FR.next 15 r = .ok (bs, r1) ∧
      t = { Typ := byteAt bs 4, Size := getInt24 (bs.drop 5),
            Time := getTime (bs.drop 8), Stream := getUint24 (bs.drop 12) } ∧
      FR.reader t.Size r1 = .ok r' := by
  unfold ReadTag at h
  cases hn : FR.next 15 r with
  | error e => rw [hn] at h; exact absurd h (by simp [Bind.bind, Except.bind])
  | ok pr =>
    obtain ⟨bs, r1⟩ := pr
    rw [hn] at h
    simp only [Bind.bind, Except.bind] at h
    cases hr : FR.reader (getInt24 (bs.drop 5)) r1 with
    | error e => rw [hr] at h; exact absurd h (by simp)
    | ok r2 =>
      rw [hr] at h
      cases h
      exact ⟨bs, r1, rfl, rfl, hr⟩

/-- C10: every tag produced by a successful `ReadTag` over a valid byte
stream has `Size` in `[0, 2^24 - 1]` and `Time` in `[0, 2^32 - 1]`, and the
bounded payload reader is granted with the non-negative count `Size`. -/
theorem readTag_fields_bounded (r : FR) (t : Tag) (r' : FR)
    (hv : ValidBytes r.data) (h : ReadTag r = .ok (t, r')) :
    0 ≤ t.Size ∧ t.Size ≤ 2 ^ 24 - 1 ∧ 0 ≤ t.Time ∧ t.Time ≤ 2 ^ 32 - 1 ∧
      r'.pending = t.Size := by
  obtain ⟨bs, r1, hn, rfl, hr⟩ := readTag_ok_spec h
  obtain ⟨rv, hval, -, rfl, -⟩ := next_ok_spec hn
  obtain ⟨hdata, -, -, -⟩ := validate_ok_spec r rv hval
  have hbs : ValidBytes ((rv.data.drop rv.consumed).take 15) := by
    rw [hdata]; exact validBytes_drop_take r.data hv rv.consumed 15
  have h24 := getInt24_bounds _ (validBytes_drop _ hbs 5)
  have h32 := getTime_bounds _ (validBytes_drop _ hbs 8)
  obtain ⟨rv2, -, rfl⟩ := reader_ok_spec hr
  exact ⟨h24.1, h24.2, h32.1, h32.2, rfl⟩

/-- C10 witness: a concrete 15-byte tag region followed by a 2-byte
payload. -/
theorem readTag_fields_bounded_witness :
    ReadTag (FR.newFileReader
        [0, 0, 0, 0, 9, 0, 0, 2, 0, 0, 0, 0, 0, 0, 0, 7, 8] false) =
      .ok (⟨9, 2, 0, 0⟩,
        ⟨[0, 0, 0, 0, 9, 0, 0, 2, 0, 0, 0, 0, 0, 0, 0, 7, 8], 15, 0, 2, false⟩) ∧
    (0 : Int) ≤ 2 ∧ (2 : Int) ≤ 2 ^ 24 - 1 ∧ (0 : Int) ≤ 0 ∧
      (0 : Int) ≤ 2 ^ 32 - 1 ∧ (2 : Int) = 2 := by
  refine ⟨by rfl, ?_⟩
  have := readTag_fields_bounded
    (FR.newFileReader [0, 0, 0, 0, 9, 0, 0, 2, 0, 0, 0, 0, 0, 0, 0, 7, 8] false)
    ⟨9, 2, 0, 0⟩
    ⟨[0, 0, 0, 0, 9, 0, 0, 2, 0, 0, 0, 0, 0, 0, 0, 7, 8], 15, 0, 2, false⟩
    (by unfold ValidBytes; decide) (by rfl)
  exact this

/-- C5 counterexample: `reader` with the negative count `-1` succeeds and
returns the limited reader, instead of failing as the claim states. -/
theorem reader_negative_counterexample :
    FR.reader (-1) (FR.newFileReader [0] false) =
      .ok { data := [0], consumed := 0, buffered := 0, pending := -1,
            seekable := false } := by
  rfl

/-- C5 (amended): `reader n` with negative `n` does not reject the request;
whenever the pending resolution succeeds it hands back the shared limited
reader with its counter set to `n`.  That reader is immediately exhausted
(yields no bytes), and the negative counter is a no-op for the next
resolution. -/
theorem reader_negative_amended (r rv : FR) (n : Int) (hn : n < 0)
    (hv : r.validate = .ok rv) :
    FR.reader n r = .ok { rv with pending := n } ∧
    (∀ j : Nat, (FR.readPayload j { rv with pending := n }).1 = []) ∧
    FR.validate { rv with pending := n } = .ok { rv with pending := n } := by
  refine ⟨?_, ?_, ?_⟩
  · unfold FR.reader
    rw [hv]
    rfl
  · intro j
    unfold FR.readPayload
    simp [Int.toNat_of_nonpos hn.le]
  · exact validate_of_nonpos _ (by simpa using hn.le)

/-- C5 witness for the amended claim, at `n = -1` over a 2-byte stream. -/
theorem reader_negative_amended_witness :
    FR.reader (-1) (FR.newFileReader [5, 6] false) =
      .ok { FR.newFileReader [5, 6] false with pending := -1 } ∧
    (FR.readPayload 3 { FR.newFileReader [5, 6] false with pending := -1 }).1
      = [] :=
  ⟨(reader_negative_amended (FR.newFileReader [5, 6] false)
      (FR.newFileReader [5, 6] false) (-1) (by decide) (by rfl)).1,
   (reader_negative_amended (FR.newFileReader [5, 6] false)
      (FR.newFileReader [5, 6] false) (-1) (by decide) (by rfl)).2.1 3⟩

/-- C3: every grant entry point (`next` and `reader`) runs the pending
resolution first: when a grant succeeds, `validate` succeeded with a zero
pending count, and the grant is the same grant made from the resolved
state. -/
theorem grants_resolve_pending_first (r : FR) (n : Nat) (m : Int)
    (h0 : 0 ≤ r.pending) :
    ((FR.next n r).toOption.isSome = true →
       r.validate.map FR.pending = .ok 0 ∧
       FR.next n r = FR.next n (r.validate.toOption.getD r)) ∧
    ((FR.reader m r).toOption.isSome = true →
       r.validate.map FR.pending = .ok 0 ∧
       FR.reader m r = FR.reader m (r.validate.toOption.getD r)) := by
  have key : ∀ rv, r.validate = .ok rv → rv.pending = 0 := by
    intro rv hv
    obtain ⟨-, -, -, hp⟩ := validate_ok_spec r rv hv
    rcases lt_or_le 0 r.pending with h | h
    · rw [if_pos h] at hp; exact hp
    · rw [if_neg (not_lt.mpr h)] at hp; omega
  constructor
  · intro hok
    cases hv : r.validate with
    | error e =>
      exfalso
      unfold FR.next at hok
      rw [hv] at hok
      simp [Bind.bind, Except.bind, Except.toOption] at hok
    | ok rv =>
      have hp0 := key rv hv
      refine ⟨by simp [Except.map, hp0], ?_⟩
      show FR.next n r = FR.next n rv
      unfold FR.next
      rw [hv, validate_of_nonpos rv (le_of_eq hp0)]
  · intro hok
    cases hv : r.validate with
    | error e =>
      exfalso
      unfold FR.reader at hok
      rw [hv] at hok
      simp [Bind.bind, Except.bind, Except.toOption] at hok
    | ok rv =>
      have hp0 := key rv hv
      refine ⟨by simp [Except.map, hp0], ?_⟩
      show FR.reader m r = FR.reader m rv
      unfold FR.reader
      rw [hv, validate_of_nonpos rv (le_of_eq hp0)]

/-- C3 witness: a reader with 2 pending bytes over 20 bytes of data; both
grant entry points resolve the pending count first. -/
theorem grants_resolve_pending_first_witness :
    ((FR.validate ⟨List.replicate 20 7, 0, 4, 2, false⟩).map FR.pending = .ok 0 ∧
      FR.next 3 ⟨List.replicate 20 7, 0, 4, 2, false⟩ =
        FR.next 3 ((FR.validate ⟨List.replicate 20 7, 0, 4, 2, false⟩).toOption.getD
          ⟨List.replicate 20 7, 0, 4, 2, false⟩)) ∧
    ((FR.validate ⟨List.replicate 20 7, 0, 4, 2, false⟩).map FR.pending = .ok 0 ∧
      FR.reader 5 ⟨List.replicate 20 7, 0, 4, 2, false⟩ =
        FR.reader 5 ((FR.validate ⟨List.replicate 20 7, 0, 4, 2, false⟩).toOption.getD
          ⟨List.replicate 20 7, 0, 4, 2, false⟩)) :=
  ⟨(grants_resolve_pending_first ⟨List.replicate 20 7, 0, 4, 2, false⟩ 3 5
      (by decide)).1 (by rfl),
   (grants_resolve_pending_first ⟨List.replicate 20 7, 0, 4, 2, false⟩ 3 5
      (by decide)).2 (by rfl)⟩

/-- C8: `ReadTag` at the true end of input (every byte before the logical
position, nothing after) returns the distinguished end-of-input error, not
a format error and not any other error. -/
theorem readTag_at_end_eof (r : FR)
    (hend : r.consumed + r.pending.toNat = r.data.length) :
    ReadTag r = .error .eof := by
  have hobs := next_obs 15 r
  rw [if_neg (by unfold FR.logicalPos; omega)] at hobs
  have hnext := except_map_error hobs
  rw [readTag_eq, hnext]

/-- C8 witness: a reader positioned exactly at the end of a 3-byte
stream. -/
theorem readTag_at_end_eof_witness :
    (3 : Nat) + (0 : Int).toNat = [1, 2, 3].length ∧
      ReadTag ⟨[1, 2, 3], 3, 0, 0, false⟩ = .error .eof :=
  ⟨by decide, readTag_at_end_eof ⟨[1, 2, 3], 3, 0, 0, false⟩ (by decide)⟩

/-- C7: on a fresh reader over at least 9 bytes, a signature mismatch in
the first three bytes fails with the format error carrying those bytes,
and a version byte other than 1 fails with the format error carrying the
version; in both cases no header is produced. -/
theorem readHeader_format_errors (b0 b1 b2 b3 : Nat) (rest : List Nat) (sk : Bool)
    (hlen : 5 ≤ rest.length) (h0 : b0 < 256) (h1 : b1 < 256) (h2 : b2 < 256) :
    ([b0, b1, b2] ≠ [0x46, 0x4C, 0x56] →
       ReadHeader (FR.newFileReader (b0 :: b1 :: b2 :: b3 :: rest) sk) =
         .error (.badSignature [b0, b1, b2])) ∧
    ([b0, b1, b2] = [0x46, 0x4C, 0x56] → b3 ≠ 1 →
       ReadHeader (FR.newFileReader (b0 :: b1 :: b2 :: b3 :: rest) sk) =
         .error (.badVersion b3)) := by
  have hval : (FR.newFileReader (b0 :: b1 :: b2 :: b3 :: rest) sk).validate =
      .ok (FR.newFileReader (b0 :: b1 :: b2 :: b3 :: rest) sk) :=
    validate_of_nonpos _ (by simp [FR.newFileReader])
  have hnext : FR.next 9 (FR.newFileReader (b0 :: b1 :: b2 :: b3 :: rest) sk) =
      .ok (b0 :: b1 :: b2 :: b3 :: rest.take 5,
        { FR.newFileReader (b0 :: b1 :: b2 :: b3 :: rest) sk with
            buffered := 9, pending := 9 }) := by
    unfold FR.next
    rw [hval]
    simp only [Bind.bind, Except.bind]
    rw [if_pos (by simp [FR.newFileReader]; omega)]
    rfl
  constructor
  · intro hne
    have hcond : getUint24 (b0 :: b1 :: b2 :: b3 :: rest.take 5) ≠ signature := by
      intro heq
      have heq' : b2 + b1 * 2 ^ 8 + b0 * 2 ^ 16
          = 0x46 * 2 ^ 16 + 0x4C * 2 ^ 8 + 0x56 := heq
      have hb0 : b0 = 0x46 ∧ b1 = 0x4C ∧ b2 = 0x56 := by omega
      exact hne (by rw [hb0.1, hb0.2.1, hb0.2.2])
    rw [readHeader_eq, hnext]
    simp only
    rw [if_pos hcond]
    rfl
  · intro hsig hv3
    obtain ⟨rfl, rfl, rfl⟩ : b0 = 0x46 ∧ b1 = 0x4C ∧ b2 = 0x56 := by
      simpa using hsig
    have hb2 : byteAt (70 :: 76 :: 86 :: b3 :: rest.take 5) 2 = 86 := rfl
    have hb1 : byteAt (70 :: 76 :: 86 :: b3 :: rest.take 5) 1 = 76 := rfl
    have hb0 : byteAt (70 :: 76 :: 86 :: b3 :: rest.take 5) 0 = 70 := rfl
    have hc1 : ¬(getUint24 (70 :: 76 :: 86 :: b3 :: rest.take 5) ≠ signature) := by
      intro h
      apply h
      unfold getUint24
      rw [hb0, hb1, hb2]
      norm_num [signature]
    have hc2 : byteAt (70 :: 76 :: 86 :: b3 :: rest.take 5) 3 ≠ 1 := hv3
    rw [readHeader_eq, hnext]
    simp only
    rw [if_neg hc1, if_pos hc2]
    rfl

/-- The bytes granted by a successful `next` are always read at the
logical position. -/
theorem next_ok_bytes {k : Nat} {S : FR} {bs : List Nat} {r' : FR}
    (h : FR.next k S = .ok (bs, r')) :
    bs = (S.data.drop (FR.logicalPos S)).take k := by
  have hm := next_obs k S
  rw [h] at hm
  split at hm
  · next hle =>
    simp only [Except.map, Except.ok.injEq, Prod.mk.injEq] at hm
    exact hm.1
  · next hle => simp [Except.map] at hm

/-- The 32-bit big-endian round-trip used by the header-length field. -/
theorem getUint32_putUint32 (v : Nat) (h : v < 2 ^ 32) :
    getUint32 (putUint32 v) = v := by
  show v % 256 + v / 2 ^ 8 % 256 * 2 ^ 8 + v / 2 ^ 16 % 256 * 2 ^ 16
      + v / 2 ^ 24 % 256 * 2 ^ 24 = v
  omega

/-- C6: on a valid header declaring total length `L`, `ReadHeader` returns
the flags byte and leaves the pending count at `L` when `L > 9` and at `9`
otherwise (the `L - 9` mark-skip happens exactly once and a negative
`L - 9` is a no-op); so the next grant observes byte offset `L` when
`L > 9` and offset `9` otherwise. -/
theorem readHeader_valid_header (flags L : Nat) (rest : List Nat) (sk : Bool)
    (hL : L < 2 ^ 32) :
    ReadHeader (FR.newFileReader (headerBytes flags L ++ rest) sk) =
      .ok (⟨flags⟩, ⟨headerBytes flags L ++ rest, 0, 9,
        if 9 < (L : Int) then (L : Int) else 9, sk⟩) ∧
    FR.logicalPos ⟨headerBytes flags L ++ rest, 0, 9,
        if 9 < (L : Int) then (L : Int) else 9, sk⟩ = (if L ≤ 9 then 9 else L) ∧
    (∀ k bs r', FR.next k ⟨headerBytes flags L ++ rest, 0, 9,
          if 9 < (L : Int) then (L : Int) else 9, sk⟩ = .ok (bs, r') →
       bs = ((headerBytes flags L ++ rest).drop (if L ≤ 9 then 9 else L)).take k) := by
  have hhb : (headerBytes flags L).length = 9 := rfl
  have hval : (FR.newFileReader (headerBytes flags L ++ rest) sk).validate =
      .ok (FR.newFileReader (headerBytes flags L ++ rest) sk) :=
    validate_of_nonpos _ (by simp [FR.newFileReader])
  have hnext : FR.next 9 (FR.newFileReader (headerBytes flags L ++ rest) sk) =
      .ok (headerBytes flags L,
        { FR.newFileReader (headerBytes flags L ++ rest) sk with
            buffered := 9, pending := 9 }) := by
    unfold FR.next
    rw [hval]
    simp only [Bind.bind, Except.bind]
    rw [if_pos (by simp [FR.newFileReader]; omega)]
    simp only [FR.newFileReader, List.drop_zero]
    rw [List.take_left' hhb]
    rfl
  have hsig : ¬(getUint24 (headerBytes flags L) ≠ signature) := by
    intro h
    apply h
    show (86 : Nat) + 76 * 2 ^ 8 + 70 * 2 ^ 16 = signature
    norm_num [signature]
  have hver : ¬(byteAt (headerBytes flags L) 3 ≠ 1) := fun h => h rfl
  have hdrop5 : (headerBytes flags L).drop 5 = putUint32 L := rfl
  have hmain : ReadHeader (FR.newFileReader (headerBytes flags L ++ rest) sk) =
      .ok (⟨flags⟩, ⟨headerBytes flags L ++ rest, 0, 9,
        if 9 < (L : Int) then (L : Int) else 9, sk⟩) := by
    rw [readHeader_eq, hnext]
    simp only
    rw [if_neg hsig, if_neg hver, hdrop5, getUint32_putUint32 L hL]
    have hflags : byteAt (headerBytes flags L) 4 = flags := rfl
    rw [hflags]
    unfold FR.skip
    by_cases h9 : (9 : Int) < (L : Int)
    · rw [if_pos (by omega : (0 : Int) < (L : Int) - 9), if_pos h9]
      show (Except.ok (⟨flags⟩,
          ⟨headerBytes flags L ++ rest, 0, 9, 9 + ((L : Int) - 9), sk⟩) :
            Except Err (Header × FR)) =
        .ok (⟨flags⟩, ⟨headerBytes flags L ++ rest, 0, 9, (L : Int), sk⟩)
      rw [show (9 : Int) + ((L : Int) - 9) = (L : Int) by ring]
    · rw [if_neg (by omega : ¬(0 : Int) < (L : Int) - 9), if_neg h9]
      rfl
  have hlp : FR.logicalPos ⟨headerBytes flags L ++ rest, 0, 9,
      if 9 < (L : Int) then (L : Int) else 9, sk⟩ = (if L ≤ 9 then 9 else L) := by
    unfold FR.logicalPos
    simp only
    split <;> split <;> omega
  refine ⟨hmain, hlp, ?_⟩
  intro k bs r' h
  have hbs := next_ok_bytes h
  rw [hlp] at hbs
  exact hbs

/-- C6 witness at `flags = 5`, `L = 13`, with 6 trailing bytes. -/
theorem readHeader_valid_header_witness :
    ReadHeader (FR.newFileReader (headerBytes 5 13 ++ [9, 9, 9, 9, 8, 7]) false) =
      .ok (⟨5⟩, ⟨headerBytes 5 13 ++ [9, 9, 9, 9, 8, 7], 0, 9,
        if 9 < (13 : Int) then (13 : Int) else 9, false⟩) ∧
    FR.logicalPos ⟨headerBytes 5 13 ++ [9, 9, 9, 9, 8, 7], 0, 9,
        if 9 < (13 : Int) then (13 : Int) else 9, false⟩ = 13 :=
  ⟨(readHeader_valid_header 5 13 [9, 9, 9, 9, 8, 7] false (by norm_num)).1,
   (readHeader_valid_header 5 13 [9, 9, 9, 9, 8, 7] false (by norm_num)).2.1⟩

/-- Reading one tag whose 15-byte region starts exactly at the logical
position: the tag's fields are decoded from that region, `Size` is the
payload length, and the returned payload stream sits at the start of the
payload with the full payload as its counter. -/
theorem readTag_at_block (b : TagBlock) (pre post : List Nat) (r : FR)
    (hwf : b.wf)
    (hdata : r.data = pre ++ b.enc ++ post)
    (hpos : r.consumed + r.pending.toNat = pre.length) :
    ∃ B, ReadTag r = .ok
      (⟨byteAt b.hdr 4, (b.payload.length : Int),
        getTime (b.hdr.drop 8), getUint24 (b.hdr.drop 12)⟩,
       ⟨r.data, pre.length + 15, B, (b.payload.length : Int), r.seekable⟩) := by
  have hlenc : b.enc.length = 15 + b.payload.length := by
    unfold TagBlock.enc
    rw [List.length_append, hwf.1]
  have hlen : r.data.length = pre.length + (15 + b.payload.length) + post.length := by
    rw [hdata]
    simp [List.length_append, hlenc]
    omega
  have hlp : FR.logicalPos r = pre.length := hpos
  have hcond : FR.logicalPos r + 15 ≤ r.data.length := by
    unfold FR.logicalPos
    omega
  have hobs := next_obs 15 r
  rw [if_pos hcond] at hobs
  obtain ⟨⟨bs, r1⟩, hnext, hf⟩ := except_map_ok hobs
  simp only [Prod.mk.injEq] at hf
  obtain ⟨hbs, hd1, hc1, hp1, hs1⟩ := hf
  have hbytes : bs = b.hdr := by
    rw [hbs, hlp, hdata, List.append_assoc, List.drop_left]
    unfold TagBlock.enc
    rw [List.append_assoc]
    exact List.take_left' hwf.1
  subst hbytes
  have hlp1 : FR.logicalPos r1 = pre.length + 15 := by
    unfold FR.logicalPos
    rw [hc1, hp1, hlp]
    rfl
  have havail1 : FR.logicalPos r1 ≤ r1.data.length := by
    rw [hlp1, hd1]
    omega
  have hro := reader_obs ((b.payload.length : Int)) r1 havail1
  obtain ⟨r2, hreader, hf2⟩ := except_map_ok hro
  simp only [Prod.mk.injEq] at hf2
  obtain ⟨hd2, hc2, hp2, hs2⟩ := hf2
  refine ⟨r2.buffered, ?_⟩
  rw [readTag_eq, hnext]
  simp only
  rw [hwf.2, hreader]
  have hstate : r2 = ⟨r.data, pre.length + 15, r2.buffered,
      (b.payload.length : Int), r.seekable⟩ := by
    cases r2 with
    | mk d c bu p s =>
      simp only at hd2 hc2 hp2 hs2
      subst hd2
      subst hc2
      subst hp2
      subst hs2
      rw [hd1, hlp1, hs1]
  conv_lhs => rw [hstate]

theorem encTags_cons (b : TagBlock) (bs : List TagBlock) :
    encTags (b :: bs) = b.enc ++ encTags bs := by
  unfold encTags
  simp

/-- C1: for a stream holding `N` well-formed tag blocks starting at the
current logical position, `N` successive `ReadTag` calls succeed, each one
entered with the logical position at the start of its block's 15-byte
region and returning `Size` equal to that block's payload length,
regardless of how many payload bytes (`js`) the caller drains after each
call; the final logical position is the end of the last block. -/
theorem readTags_sizes_positions (blocks : List TagBlock) (js : List Nat)
    (pre post : List Nat) (r : FR)
    (hwf : ∀ b ∈ blocks, b.wf)
    (hjs : js.length = blocks.length)
    (hdata : r.data = pre ++ encTags blocks ++ post)
    (hpos : r.consumed + r.pending.toNat = pre.length) :
    (readTagsTrace js r).map
        (fun q => (q.1, q.2.consumed + q.2.pending.toNat)) =
      .ok (expectedTrace pre.length blocks,
           pre.length + (encTags blocks).length) := by
  induction blocks generalizing js pre r with
  | nil =>
    obtain rfl : js = [] := List.length_eq_zero.mp hjs
    unfold readTagsTrace expectedTrace encTags
    simp [Except.map, hpos]
  | cons b bs ih =>
    obtain ⟨j, js', rfl⟩ : ∃ j js', js = j :: js' := by
      cases js with
      | nil => simp at hjs
      | cons j js' => exact ⟨j, js', rfl⟩
    have hwfb := hwf b (List.mem_cons_self b bs)
    have hdata' : r.data = pre ++ b.enc ++ (encTags bs ++ post) := by
      rw [hdata, encTags_cons]
      simp [List.append_assoc]
    obtain ⟨B, hstep⟩ := readTag_at_block b pre (encTags bs ++ post) r
      hwfb hdata' hpos
    have hlenc : (pre ++ b.enc).length = pre.length + 15 + b.payload.length := by
      simp [TagBlock.enc, List.length_append, hwfb.1]
      omega
    unfold readTagsTrace
    rw [hstep]
    simp only [Bind.bind, Except.bind]
    have hpo := readPayload_obs j
      ⟨r.data, pre.length + 15, B, (b.payload.length : Int), r.seekable⟩
    have hpos2 : (FR.readPayload j
          ⟨r.data, pre.length + 15, B, (b.payload.length : Int), r.seekable⟩).2.consumed
        + (FR.readPayload j
          ⟨r.data, pre.length + 15, B, (b.payload.length : Int), r.seekable⟩).2.pending.toNat
        = (pre ++ b.enc).length := by
      rw [hpo.2.2.2.1, hlenc]
      simp only
      omega
    have hdata2 : (FR.readPayload j
          ⟨r.data, pre.length + 15, B, (b.payload.length : Int), r.seekable⟩).2.data
        = (pre ++ b.enc) ++ encTags bs ++ post := by
      rw [hpo.2.1]
      show r.data = (pre ++ b.enc) ++ encTags bs ++ post
      rw [hdata']
      simp [List.append_assoc]
    have hih := ih js' (pre ++ b.enc)
      (FR.readPayload j
        ⟨r.data, pre.length + 15, B, (b.payload.length : Int), r.seekable⟩).2
      (fun x hx => hwf x (List.mem_cons_of_mem b hx))
      (by simpa using hjs) hdata2 hpos2
    obtain ⟨⟨tr, r3⟩, hrt, hf3⟩ := except_map_ok hih
    rw [hrt]
    simp only [Except.map, Prod.mk.injEq] at hf3
    obtain ⟨htr, hpos3⟩ := hf3
    rw [hlenc] at htr hpos3
    simp only [Except.map, Except.ok.injEq, Prod.mk.injEq]
    refine ⟨?_, ?_⟩
    · unfold expectedTrace
      rw [List.cons.injEq]
      exact ⟨by rw [Prod.mk.injEq]; exact ⟨hpos, rfl⟩, htr⟩
    · rw [hpos3, encTags_cons]
      simp [List.length_append, TagBlock.enc, hwfb.1]
      omega

/-- C1 witness: two tags (sizes 2 and 1) after a 2-byte prefix covered by
a pending skip; the first payload is read past its end (`j = 3` clamps to
2 bytes), the second is not read at all. -/
theorem readTags_sizes_positions_witness :
    (readTagsTrace [3, 0]
        ⟨[9, 9] ++ encTags [⟨[0, 0, 0, 0, 8, 0, 0, 2, 0, 0, 0, 0, 0, 0, 0], [1, 2]⟩,
            ⟨[0, 0, 0, 0, 9, 0, 0, 1, 0, 0, 0, 0, 0, 0, 0], [5]⟩] ++ [],
          0, 0, 2, false⟩).map
        (fun q => (q.1, q.2.consumed + q.2.pending.toNat)) =
      .ok (expectedTrace 2
          [⟨[0, 0, 0, 0, 8, 0, 0, 2, 0, 0, 0, 0, 0, 0, 0], [1, 2]⟩,
           ⟨[0, 0, 0, 0, 9, 0, 0, 1, 0, 0, 0, 0, 0, 0, 0], [5]⟩],
        2 + (encTags [⟨[0, 0, 0, 0, 8, 0, 0, 2, 0, 0, 0, 0, 0, 0, 0], [1, 2]⟩,
           ⟨[0, 0, 0, 0, 9, 0, 0, 1, 0, 0, 0, 0, 0, 0, 0], [5]⟩]).length) :=
  readTags_sizes_positions
    [⟨[0, 0, 0, 0, 8, 0, 0, 2, 0, 0, 0, 0, 0, 0, 0], [1, 2]⟩,
     ⟨[0, 0, 0, 0, 9, 0, 0, 1, 0, 0, 0, 0, 0, 0, 0], [5]⟩]
    [3, 0] [9, 9] []
    ⟨[9, 9] ++ encTags [⟨[0, 0, 0, 0, 8, 0, 0, 2, 0, 0, 0, 0, 0, 0, 0], [1, 2]⟩,
        ⟨[0, 0, 0, 0, 9, 0, 0, 1, 0, 0, 0, 0, 0, 0, 0], [5]⟩] ++ [],
      0, 0, 2, false⟩
    (by
      intro x hx
      rcases List.mem_cons.mp hx with rfl | hx2
      · exact ⟨rfl, by decide⟩
      · rcases List.mem_cons.mp hx2 with rfl | hx3
        · exact ⟨rfl, by decide⟩
        · cases hx3)
    (by decide) rfl (by decide)

/-- C7 witness: the "XXX" signature and an unsupported version 2. -/
theorem readHeader_format_errors_witness :
    ReadHeader (FR.newFileReader
        (0x58 :: 0x58 :: 0x58 :: 1 :: [0, 0, 0, 0, 9]) false) =
      .error (.badSignature [0x58, 0x58, 0x58]) ∧
    ReadHeader (FR.newFileReader
        (0x46 :: 0x4C :: 0x56 :: 2 :: [0, 0, 0, 0, 9]) false) =
      .error (.badVersion 2) :=
  ⟨(readHeader_format_errors 0x58 0x58 0x58 1 [0, 0, 0, 0, 9] false
      (by norm_num) (by norm_num) (by norm_num) (by norm_num)).1 (by decide),
   (readHeader_format_errors 0x46 0x4C 0x56 2 [0, 0, 0, 0, 9] false
      (by norm_num) (by norm_num) (by norm_num) (by norm_num)).2 (by decide)
      (by decide)⟩

/-- Reading from the payload stream depends only on the observable part of
the state (data, consumed, pending), not on the read-ahead amount or the
seek capability. -/
theorem readPayload_bisim (j : Nat) (s₁ s₂ : FR)
    (hd : s₁.data = s₂.data) (hc : s₁.consumed = s₂.consumed)
    (hp : s₁.pending = s₂.pending) :
    (FR.readPayload j s₁).1 = (FR.readPayload j s₂).1 ∧
    (FR.readPayload j s₁).2.data = (FR.readPayload j s₂).2.data ∧
    (FR.readPayload j s₁).2.consumed = (FR.readPayload j s₂).2.consumed ∧
    (FR.readPayload j s₁).2.pending = (FR.readPayload j s₂).2.pending := by
  unfold FR.readPayload
  simp only
  rw [hd, hc, hp]
  exact ⟨rfl, rfl, rfl, rfl⟩

/-- `ReadTag` is observationally insensitive to the read-ahead amount and
the seek capability: two readers over the same data at the same logical
state return the same tag (or the same error) and equal observable result
states. -/
theorem readTag_bisim (r₁ r₂ : FR)
    (hd : r₁.data = r₂.data) (hc : r₁.consumed = r₂.consumed)
    (hp : r₁.pending = r₂.pending) :
    (ReadTag r₁).map (fun q => (q.1, q.2.data, q.2.consumed, q.2.pending)) =
      (ReadTag r₂).map (fun q => (q.1, q.2.data, q.2.consumed, q.2.pending)) := by
  have hlp : FR.logicalPos r₁ = FR.logicalPos r₂ := by
    unfold FR.logicalPos
    rw [hc, hp]
  have h1 := next_obs 15 r₁
  have h2 := next_obs 15 r₂
  by_cases hcond : FR.logicalPos r₁ + 15 ≤ r₁.data.length
  · rw [if_pos hcond] at h1
    rw [if_pos (by rw [← hlp, ← hd]; exact hcond)] at h2
    obtain ⟨⟨bs₁, s₁⟩, hn1, hf1⟩ := except_map_ok h1
    obtain ⟨⟨bs₂, s₂⟩, hn2, hf2⟩ := except_map_ok h2
    simp only [Prod.mk.injEq] at hf1 hf2
    obtain ⟨hbs1, hd1, hc1, hp1, -⟩ := hf1
    obtain ⟨hbs2, hd2, hc2, hp2, -⟩ := hf2
    have hbs : bs₁ = bs₂ := by rw [hbs1, hbs2, hd, hlp]
    have havail₁ : FR.logicalPos s₁ ≤ s₁.data.length := by
      unfold FR.logicalPos
      rw [hc1, hp1, hd1]
      simp only [Int.toNat_ofNat]
      omega
    have havail₂ : FR.logicalPos s₂ ≤ s₂.data.length := by
      unfold FR.logicalPos
      rw [hc2, hp2, hd2, ← hd, ← hlp]
      simp only [Int.toNat_ofNat]
      omega
    obtain ⟨t₁, hro1, hg1⟩ := except_map_ok (reader_obs (getInt24 (bs₁.drop 5)) s₁ havail₁)
    obtain ⟨t₂, hro2, hg2⟩ := except_map_ok (reader_obs (getInt24 (bs₂.drop 5)) s₂ havail₂)
    simp only [Prod.mk.injEq] at hg1 hg2
    obtain ⟨hgd1, hgc1, hgp1, -⟩ := hg1
    obtain ⟨hgd2, hgc2, hgp2, -⟩ := hg2
    rw [readTag_eq, readTag_eq, hn1, hn2]
    simp only
    subst hbs
    rw [hro1, hro2]
    simp only [Except.map]
    have e1 : t₁.data = t₂.data := by rw [hgd1, hgd2, hd1, hd2, hd]
    have e2 : t₁.consumed = t₂.consumed := by
      rw [hgc1, hgc2]
      unfold FR.logicalPos
      rw [hc1, hc2, hp1, hp2, hlp]
    have e3 : t₁.pending = t₂.pending := by rw [hgp1, hgp2]
    rw [e1, e2, e3]
  · rw [if_neg hcond] at h1
    rw [if_neg (by rw [← hlp, ← hd]; exact hcond)] at h2
    rw [readTag_eq, readTag_eq, except_map_error h1, except_map_error h2]

/-- `readTagsRun` only observes the data, the consumed count, and the
pending count: the read-ahead amount and the seek capability never change
which tags and payload bytes come back. -/
theorem readTagsRun_bisim (js : List Nat) (r₁ r₂ : FR)
    (hd : r₁.data = r₂.data) (hc : r₁.consumed = r₂.consumed)
    (hp : r₁.pending = r₂.pending) :
    (readTagsRun js r₁).map (fun q => q.1) =
      (readTagsRun js r₂).map (fun q => q.1) := by
  induction js generalizing r₁ r₂ with
  | nil =>
    unfold readTagsRun
    rfl
  | cons j js' ih =>
    have hbt := readTag_bisim r₁ r₂ hd hc hp
    unfold readTagsRun
    cases ht1 : ReadTag r₁ with
    | error e =>
      rw [ht1] at hbt
      have ht2 : ReadTag r₂ = .error e := except_map_error hbt.symm
      rw [ht2]
    | ok q₁ =>
      obtain ⟨t₁, s₁⟩ := q₁
      rw [ht1] at hbt
      obtain ⟨⟨t₂, s₂⟩, ht2, hobs⟩ := except_map_ok hbt.symm
      simp only [Except.map, Except.ok.injEq, Prod.mk.injEq] at hobs
      obtain ⟨hteq, hsd, hsc, hsp⟩ := hobs
      rw [ht2]
      simp only [Bind.bind, Except.bind]
      have hpb := readPayload_bisim j s₂ s₁ hsd hsc hsp
      have hih := ih (FR.readPayload j s₂).2 (FR.readPayload j s₁).2
        hpb.2.1 hpb.2.2.1 hpb.2.2.2
      cases hrt1 : readTagsRun js' (FR.readPayload j s₂).2 with
      | error e =>
        rw [hrt1] at hih
        have hrt2 : readTagsRun js' (FR.readPayload j s₁).2 = .error e :=
          except_map_error hih.symm
        rw [hrt2]
      | ok p₁ =>
        obtain ⟨l₁, u₁⟩ := p₁
        rw [hrt1] at hih
        obtain ⟨⟨l₂, u₂⟩, hrt2, hleq⟩ := except_map_ok hih.symm
        simp only [Except.map, Except.ok.injEq] at hleq
        rw [hrt2]
        simp only [Except.map, Except.ok.injEq]
        rw [hteq, hleq, hpb.1]

/-- `ReadHeader` is likewise observationally insensitive to the read-ahead
amount and the seek capability. -/
theorem readHeader_bisim (r₁ r₂ : FR)
    (hd : r₁.data = r₂.data) (hc : r₁.consumed = r₂.consumed)
    (hp : r₁.pending = r₂.pending) :
    (ReadHeader r₁).map (fun q => (q.1, q.2.data, q.2.consumed, q.2.pending)) =
      (ReadHeader r₂).map (fun q => (q.1, q.2.data, q.2.consumed, q.2.pending)) := by
  have hlp : FR.logicalPos r₁ = FR.logicalPos r₂ := by
    unfold FR.logicalPos
    rw [hc, hp]
  have h1 := next_obs 9 r₁
  have h2 := next_obs 9 r₂
  by_cases hcond : FR.logicalPos r₁ + 9 ≤ r₁.data.length
  · rw [if_pos hcond] at h1
    rw [if_pos (by rw [← hlp, ← hd]; exact hcond)] at h2
    obtain ⟨⟨bs₁, s₁⟩, hn1, hf1⟩ := except_map_ok h1
    obtain ⟨⟨bs₂, s₂⟩, hn2, hf2⟩ := except_map_ok h2
    simp only [Prod.mk.injEq] at hf1 hf2
    obtain ⟨hbs1, hd1, hc1, hp1, -⟩ := hf1
    obtain ⟨hbs2, hd2, hc2, hp2, -⟩ := hf2
    have hbs : bs₁ = bs₂ := by rw [hbs1, hbs2, hd, hlp]
    rw [readHeader_eq, readHeader_eq, hn1, hn2]
    simp only
    subst hbs
    by_cases hsig : getUint24 bs₁ ≠ signature
    · rw [if_pos hsig, if_pos hsig]
    · rw [if_neg hsig, if_neg hsig]
      by_cases hver : byteAt bs₁ 3 ≠ 1
      · rw [if_pos hver, if_pos hver]
      · rw [if_neg hver, if_neg hver]
        simp only [Except.map]
        unfold FR.skip
        by_cases hsk : (0 : Int) < (getUint32 (bs₁.drop 5) : Int) - 9
        · rw [if_pos hsk, if_pos hsk]
          simp only [hd1, hd2, hc1, hc2, hp1, hp2, hd, hlp]
        · rw [if_neg hsk, if_neg hsk]
          simp only [hd1, hd2, hc1, hc2, hp1, hp2, hd, hlp]
  · rw [if_neg hcond] at h1
    rw [if_neg (by rw [← hlp, ← hd]; exact hcond)] at h2
    rw [readHeader_eq, readHeader_eq, except_map_error h1, except_map_error h2]

/-- C4: a full container-interface run over the same bytes returns the
same header, tags, and payload bytes (or the same error) whether the
source is seekable (skip by seek fallback) or not (skip by
read-and-discard). -/
theorem runFile_seek_irrelevant (data : List Nat) (js : List Nat) :
    runFile data true js = runFile data false js := by
  have hbt := readHeader_bisim (FR.newFileReader data true)
    (FR.newFileReader data false) rfl rfl rfl
  unfold runFile
  cases hh1 : ReadHeader (FR.newFileReader data true) with
  | error e =>
    rw [hh1] at hbt
    have hh2 : ReadHeader (FR.newFileReader data false) = .error e :=
      except_map_error hbt.symm
    rw [hh2]
  | ok q₁ =>
    obtain ⟨h₁, s₁⟩ := q₁
    rw [hh1] at hbt
    obtain ⟨⟨h₂, s₂⟩, hh2, hobs⟩ := except_map_ok hbt.symm
    simp only [Except.map, Except.ok.injEq, Prod.mk.injEq] at hobs
    obtain ⟨hheq, hsd, hsc, hsp⟩ := hobs
    rw [hh2]
    simp only [Bind.bind, Except.bind]
    have hrt := readTagsRun_bisim js s₂ s₁ hsd hsc hsp
    cases hr1 : readTagsRun js s₂ with
    | error e =>
      rw [hr1] at hrt
      have hr2 : readTagsRun js s₁ = .error e := except_map_error hrt.symm
      rw [hr2]
    | ok p₁ =>
      obtain ⟨l₁, u₁⟩ := p₁
      rw [hr1] at hrt
      obtain ⟨⟨l₂, u₂⟩, hr2, hleq⟩ := except_map_ok hrt.symm
      simp only [Except.map, Except.ok.injEq] at hleq
      rw [hr2]
      simp only [Except.ok.injEq]
      rw [hheq, hleq]

end FlvSpec
